import Mathlib

/-
Verification of the fast-unstake background processor specification.

The repository ships only the test suite of the pallet
(src/frame/fast-unstake/src/tests.rs); the pallet implementation itself is
not under src/.  The state machine below is therefore modelled from the
specification (spec.md sections 2-4 and 8), keeping the storage and event
names used by the tests (Queue, Head, UnstakeRequest, checked,
maybe_pool_id, ErasToCheckPerBlock, Checked, Unstaked).
-/

namespace FastUnstake

/-- Modelled from the spec: the Active Record held in the Active Slot
(called `Head` by the tests): the account being processed, the ordered list
of epoch numbers already confirmed clean (insertion order = verification
order), and the optional destination pool id. -/
structure UnstakeRequest where
  stash : Nat
  checked : List Nat
  maybe_pool_id : Option Nat
deriving Repr, DecidableEq

/-- Modelled from the spec: the durable state of the core.  `queue` is the
Pending Set (account to optional destination-pool mapping, kept as an
association list whose first entry is the deterministic promotion choice;
the spec leaves the selection policy open).  `head` is the Active Slot (at
most one in-flight record).  `erasToCheckPerBlock` is the Rate Config
("epochs verified per tick").  `unstaked` records the accounts for which
the external finalize-and-unstake collaborator has removed the staking
ledger (it does so regardless of the pool-join outcome). -/
structure FUState where
  queue : List (Nat × Option Nat)
  head : Option UnstakeRequest
  erasToCheckPerBlock : Nat
  unstaked : List Nat
deriving Repr, DecidableEq

/-- Modelled from the spec: the result of the external finalize-and-unstake
collaborator: success, or a structured failure such as the destination pool
rejecting the join. -/
inductive FinalizeOutcome where
  | ok
  | err (e : Nat)
deriving Repr, DecidableEq

/-- Modelled from the spec: outcome events.  One `Checked` event per tick
lists the epochs confirmed in that tick in verification order; one
`Unstaked` event reports the terminal finalize outcome (success or the
structured failure of the destination pool join). -/
inductive Event where
  | Checked (stash : Nat) (eras : List Nat)
  | Unstaked (stash : Nat) (maybe_pool_id : Option Nat) (result : FinalizeOutcome)
deriving Repr, DecidableEq

/-- Modelled from the spec: the read-only external collaborators consulted
by one tick: the busy signal, the current authoritative epoch and the
confirmation-window size, the compute costs of promotion, of verifying one
epoch, and of the finalize call, and the finalize outcome function. -/
structure Env where
  busy : Bool
  currentEra : Nat
  windowSize : Nat
  promoteCost : Nat
  checkCost : Nat → Nat
  finalizeCost : Nat
  finalizeResult : Nat → Option Nat → FinalizeOutcome

/-- Modelled from the spec: the confirmation window
`[currentEra - windowSize + 1, currentEra]`, listed in descending order
starting at the current epoch (truncated at epoch 0). -/
def eraWindow (env : Env) : List Nat :=
  (List.range (min env.windowSize (env.currentEra + 1))).map
    (fun i => env.currentEra - i)

/-- Modelled from the spec: the set of epochs in the current confirmation
window not yet present in `checked`, recomputed from the current window
each time it is used. -/
def uncheckedOf (env : Env) (checked : List Nat) : List Nat :=
  (eraWindow env).filter (fun e => !(decide (e ∈ checked)))

/-- Modelled from the spec: verify epochs one at a time, capped by the
per-tick rate and stopping (without error) as soon as the remaining budget
cannot afford the next epoch.  Returns the epochs verified, in order, and
the total compute consumed. -/
def takeAffordable (cost : Nat → Nat) (budget : Nat) : Nat → List Nat → List Nat × Nat
  | 0, _ => ([], 0)
  | _ + 1, [] => ([], 0)
  | rate + 1, e :: rest =>
    if cost e ≤ budget then
      let tc := takeAffordable cost (budget - cost e) rate rest
      (e :: tc.1, cost e + tc.2)
    else ([], 0)

/-- The outcome of one tick: the new state, the compute consumed, and the
events emitted. -/
structure TickResult where
  state : FUState
  consumed : Nat
  events : List Event
deriving Repr, DecidableEq

/-- Modelled from the spec: one tick of the processor, taking the state
fields separately.  If the busy signal is asserted, consume zero budget and
change nothing.  If idle, promote the first Pending Set entry when the
budget affords the promotion cost and then verify epochs within the
remaining budget and rate.  If the Active Record has reached the window
size, invoke finalize when the budget affords it (clearing the slot
regardless of the finalize result); otherwise verify further epochs of the
recomputed window.  Section 8 of the spec (scenarios A and C) fixes that
the tick completing verification does not finalize in the same tick. -/
def tickAux (env : Env) (b : Nat) (q : List (Nat × Option Nat))
    (hd : Option UnstakeRequest) (rate : Nat) (us : List Nat) : TickResult :=
  if env.busy then ⟨⟨q, hd, rate, us⟩, 0, []⟩
  else
    match hd with
    | none =>
      match q with
      | [] => ⟨⟨[], none, rate, us⟩, 0, []⟩
      | (s, p) :: rest =>
        if env.promoteCost ≤ b then
          let tc := takeAffordable env.checkCost (b - env.promoteCost) rate
            (uncheckedOf env [])
          ⟨⟨rest, some ⟨s, tc.1, p⟩, rate, us⟩, env.promoteCost + tc.2,
            if tc.1.isEmpty then [] else [Event.Checked s tc.1]⟩
        else ⟨⟨(s, p) :: rest, none, rate, us⟩, 0, []⟩
    | some r =>
      if env.windowSize ≤ r.checked.length then
        if env.finalizeCost ≤ b then
          ⟨⟨q, none, rate, us ++ [r.stash]⟩, env.finalizeCost,
            [Event.Unstaked r.stash r.maybe_pool_id
              (env.finalizeResult r.stash r.maybe_pool_id)]⟩
        else ⟨⟨q, some r, rate, us⟩, 0, []⟩
      else
        let tc := takeAffordable env.checkCost b rate (uncheckedOf env r.checked)
        ⟨⟨q, some ⟨r.stash, r.checked ++ tc.1, r.maybe_pool_id⟩, rate, us⟩, tc.2,
          if tc.1.isEmpty then [] else [Event.Checked r.stash tc.1]⟩

/-- Modelled from the spec: the tick entry point `on_idle`, receiving the
compute-budget ceiling and returning the new state, the compute consumed
and the emitted events. -/
def tick (env : Env) (st : FUState) (b : Nat) : TickResult :=
  tickAux env b st.queue st.head st.erasToCheckPerBlock st.unstaked

/-- Modelled from the spec: run a sequence of ticks, each with its own
environment and budget, accumulating consumed compute and events. -/
def runTicks : List (Env × Nat) → FUState → FUState × Nat × List Event
  | [], st => (st, 0, [])
  | (env, b) :: rest, st =>
    let out := tick env st b
    let acc := runTicks rest out.state
    (acc.1, out.consumed + acc.2.1, out.events ++ acc.2.2)

/-- Errors surfaced by the Admission/Withdrawal API. -/
inductive FUError where
  | NotAuthorized
  | AlreadyQueued
  | AlreadyActive
  | NotQueued
deriving Repr, DecidableEq

/-- The account occupying the Active Slot, if any. -/
def headOf (st : FUState) : Option Nat :=
  st.head.map (fun r => r.stash)

/-- Modelled from the spec: `register(caller, destination_pool)`.  The
function `auth` combines the two authorization collaborators: it returns
the fully-committed account the caller manages, or `none` when the caller
is not the authorized manager of a fully-committed account (in particular
when a partial withdrawal is in progress).  Fails with `AlreadyQueued` when
the account is already in the Pending Set, with `AlreadyActive` when it
occupies the Active Slot; on success inserts the account with its optional
destination pool into the Pending Set and mutates nothing else. -/
def register (auth : Nat → Option Nat) (st : FUState) (caller : Nat)
    (pool : Option Nat) : Except FUError FUState :=
  match auth caller with
  | none => .error .NotAuthorized
  | some s =>
    if s ∈ st.queue.map Prod.fst then .error .AlreadyQueued
    else if headOf st = some s then .error .AlreadyActive
    else .ok { st with queue := st.queue ++ [(s, pool)] }

/-- Modelled from the spec: `deregister(caller)`.  Fails with
`AlreadyActive` when the account occupies the Active Slot (an in-flight
verification cannot be cancelled), with `NotQueued` when it is absent from
the Pending Set; on success removes it from the Pending Set. -/
def deregister (auth : Nat → Option Nat) (st : FUState) (caller : Nat) :
    Except FUError FUState :=
  match auth caller with
  | none => .error .NotAuthorized
  | some s =>
    if headOf st = some s then .error .AlreadyActive
    else if s ∈ st.queue.map Prod.fst then
      .ok { st with queue := st.queue.filter (fun qe => !(decide (qe.1 = s))) }
    else .error .NotQueued

/-- Modelled from the spec: `set_rate`, the privileged control operation
overwriting the Rate Config. -/
def control (hasCapability : Bool) (st : FUState) (newRate : Nat) :
    Except FUError FUState :=
  if hasCapability then .ok { st with erasToCheckPerBlock := newRate }
  else .error .NotAuthorized

/-- The empty initial state with a given rate configuration. -/
def initState (rate : Nat) : FUState :=
  ⟨[], none, rate, []⟩

/-- The reachable states: the initial state, closed under successful
register, deregister and control calls and under ticks with arbitrary
environments and budgets. -/
inductive Reachable : FUState → Prop
  | init (rate : Nat) : Reachable (initState rate)
  | reg {st st' : FUState} (auth : Nat → Option Nat) (c : Nat) (p : Option Nat) :
      Reachable st → register auth st c p = .ok st' → Reachable st'
  | dereg {st st' : FUState} (auth : Nat → Option Nat) (c : Nat) :
      Reachable st → deregister auth st c = .ok st' → Reachable st'
  | ctrl {st st' : FUState} (cap : Bool) (rate : Nat) :
      Reachable st → control cap st rate = .ok st' → Reachable st'
  | step {st : FUState} (env : Env) (b : Nat) :
      Reachable st → Reachable (tick env st b).state

/-- Modelled from the spec: the cost of the next single unit of work the
tick would attempt from a given state: one promotion when idle with a
nonempty Pending Set, the finalize call when the Active Record has reached
the window size, or the verification of the next unchecked epoch. -/
def nextUnitCost (env : Env) (st : FUState) : Option Nat :=
  match st.head with
  | none =>
    match st.queue with
    | [] => none
    | _ :: _ => some env.promoteCost
  | some r =>
    if env.windowSize ≤ r.checked.length then some env.finalizeCost
    else
      match st.erasToCheckPerBlock, uncheckedOf env r.checked with
      | 0, _ => none
      | _ + 1, [] => none
      | _ + 1, e :: _ => some (env.checkCost e)

/-- The test environment: no busy signal, current epoch 3, window size 4
(bonding duration 3 plus 1), unit promotion, verification and finalize
costs, and a finalize collaborator that succeeds. -/
def envW : Env := ⟨false, 3, 4, 1, fun _ => 1, 1, fun _ _ => .ok⟩

/-- The environment after the authoritative epoch advanced to 4, so the
confirmation window slid to [1, 4]. -/
def envSlide : Env := ⟨false, 4, 4, 1, fun _ => 1, 1, fun _ _ => .ok⟩

/-- The environment while the busy signal is asserted. -/
def envBusy : Env := ⟨true, 4, 4, 1, fun _ => 1, 1, fun _ _ => .ok⟩

/-- An environment whose finalize collaborator reports the structured
failure 7 (the destination pool rejects the join). -/
def envErr : Env := ⟨false, 3, 4, 1, fun _ => 1, 1, fun _ _ => .err 7⟩

/-- The authorization table of the tests: caller 2 is the manager of the
fully-committed account 1; everyone else manages nothing. -/
def authW : Nat → Option Nat := fun c => if c = 2 then some 1 else none

/-- Account 1 queued with destination pool 1, rate one epoch per tick. -/
def stA0 : FUState := ⟨[(1, some 1)], none, 1, []⟩

/-- Account 1 queued with destination pool 1, rate four epochs per tick. -/
def stReg : FUState := ⟨[(1, some 1)], none, 4, []⟩

/-- Account 1 occupying the Active Slot with nothing confirmed yet. -/
def stHd : FUState := ⟨[], some ⟨1, [], none⟩, 4, []⟩

/-- The state after one full-rate tick on `stReg`: account 1 promoted and
all four window epochs confirmed. -/
def stHead4 : FUState := (tick envW stReg 10).state

/-- A mid-verification state: account 1 active with epochs 3 and 2
confirmed, rate one epoch per tick. -/
def stMid : FUState := ⟨[], some ⟨1, [3, 2], some 1⟩, 1, []⟩

/-- An active record whose first confirmed epochs (9 and 8) lie outside
the window of `envSlide` but count toward the window-completeness check. -/
def stSkip : FUState := ⟨[], some ⟨1, [9, 8, 3], none⟩, 1, []⟩

/-- An active record whose confirmed count has reached the window size. -/
def stDone : FUState := ⟨[], some ⟨1, [3, 2, 1, 0], some 1⟩, 1, []⟩

/-- Two consecutive ticks under an asserted busy signal. -/
def stepsBusy : List (Env × Nat) := [(envBusy, 5), (envBusy, 7)]

/-- First tick of the one-epoch-per-tick scenario. -/
def tickA1 : TickResult := tick envW stA0 10

/-- Second tick of the one-epoch-per-tick scenario. -/
def tickA2 : TickResult := tick envW tickA1.state 10

/-- Third tick of the one-epoch-per-tick scenario. -/
def tickA3 : TickResult := tick envW tickA2.state 10

/-- Fourth tick of the one-epoch-per-tick scenario. -/
def tickA4 : TickResult := tick envW tickA3.state 10

/-- Fifth tick of the one-epoch-per-tick scenario. -/
def tickA5 : TickResult := tick envW tickA4.state 10

/-- The invariant maintained by every operation: the Pending Set keys are
distinct, the Active Slot occupant is not in the Pending Set, and its
confirmed epochs contain no repetition. -/
def Inv (st : FUState) : Prop :=
  (st.queue.map Prod.fst).Nodup ∧
  ∀ r, st.head = some r → r.stash ∉ st.queue.map Prod.fst ∧ r.checked.Nodup

theorem tick_eq (env : Env) (st : FUState) (b : Nat) :
    tick env st b = tickAux env b st.queue st.head st.erasToCheckPerBlock st.unstaked :=
  rfl

theorem takeAffordable_cost_le (cost : Nat → Nat) :
    ∀ (rate : Nat) (es : List Nat) (budget : Nat),
      (takeAffordable cost budget rate es).2 ≤ budget := by
  intro rate
  induction rate with
  | zero => intro es budget; simp [takeAffordable]
  | succ n ih =>
    intro es budget
    cases es with
    | nil => simp [takeAffordable]
    | cons e rest =>
      by_cases h : cost e ≤ budget
      · have h2 := ih rest (budget - cost e)
        simp only [takeAffordable, if_pos h]
        omega
      · simp [takeAffordable, h]

theorem takeAffordable_subset (cost : Nat → Nat) :
    ∀ (rate : Nat) (es : List Nat) (budget : Nat) (a : Nat),
      a ∈ (takeAffordable cost budget rate es).1 → a ∈ es := by
  intro rate
  induction rate with
  | zero => intro es budget a h; simp [takeAffordable] at h
  | succ n ih =>
    intro es budget a h
    cases es with
    | nil => simp [takeAffordable] at h
    | cons e rest =>
      by_cases hc : cost e ≤ budget
      · simp only [takeAffordable, if_pos hc] at h
        rcases List.mem_cons.mp h with h1 | h2
        · exact h1 ▸ List.mem_cons_self e rest
        · exact List.mem_cons_of_mem e (ih rest (budget - cost e) a h2)
      · simp [takeAffordable, hc] at h

theorem takeAffordable_nodup (cost : Nat → Nat) :
    ∀ (rate : Nat) (es : List Nat) (budget : Nat), es.Nodup →
      (takeAffordable cost budget rate es).1.Nodup := by
  intro rate
  induction rate with
  | zero => intro es budget _; simp [takeAffordable]
  | succ n ih =>
    intro es budget hn
    cases es with
    | nil => simp [takeAffordable]
    | cons e rest =>
      have hparts := List.nodup_cons.mp hn
      by_cases hc : cost e ≤ budget
      · simp only [takeAffordable, if_pos hc]
        refine List.nodup_cons.mpr ⟨?_, ih rest (budget - cost e) hparts.2⟩
        intro hmem
        exact hparts.1 (takeAffordable_subset cost n rest (budget - cost e) e hmem)
      · simp [takeAffordable, hc]

theorem eraWindow_nodup (env : Env) : (eraWindow env).Nodup := by
  unfold eraWindow
  refine List.Nodup.map_on ?_ (List.nodup_range _)
  intro i hi j hj hij
  have hi2 : i < min env.windowSize (env.currentEra + 1) := List.mem_range.mp hi
  have hj2 : j < min env.windowSize (env.currentEra + 1) := List.mem_range.mp hj
  omega

theorem uncheckedOf_nodup (env : Env) (checked : List Nat) :
    (uncheckedOf env checked).Nodup :=
  (eraWindow_nodup env).filter _

theorem mem_uncheckedOf {env : Env} {checked : List Nat} {e : Nat} :
    e ∈ uncheckedOf env checked ↔ e ∈ eraWindow env ∧ e ∉ checked := by
  simp [uncheckedOf, List.mem_filter]

theorem tickAux_busy (env : Env) (b : Nat) (q : List (Nat × Option Nat))
    (hd : Option UnstakeRequest) (rate : Nat) (us : List Nat) (h : env.busy = true) :
    tickAux env b q hd rate us = ⟨⟨q, hd, rate, us⟩, 0, []⟩ := by
  simp [tickAux, h]

theorem tickAux_idle_empty (env : Env) (b : Nat) (rate : Nat) (us : List Nat)
    (hb : env.busy = false) :
    tickAux env b [] none rate us = ⟨⟨[], none, rate, us⟩, 0, []⟩ := by
  simp [tickAux, hb]

theorem tickAux_promote (env : Env) (b : Nat) (s : Nat) (p : Option Nat)
    (rest : List (Nat × Option Nat)) (rate : Nat) (us : List Nat)
    (hb : env.busy = false) (hc : env.promoteCost ≤ b) :
    tickAux env b ((s, p) :: rest) none rate us =
      ⟨⟨rest,
         some ⟨s, (takeAffordable env.checkCost (b - env.promoteCost) rate (uncheckedOf env [])).1, p⟩,
         rate, us⟩,
        env.promoteCost + (takeAffordable env.checkCost (b - env.promoteCost) rate (uncheckedOf env [])).2,
        if (takeAffordable env.checkCost (b - env.promoteCost) rate (uncheckedOf env [])).1.isEmpty then []
        else [Event.Checked s (takeAffordable env.checkCost (b - env.promoteCost) rate (uncheckedOf env [])).1]⟩ := by
  simp [tickAux, hb, hc]

theorem tickAux_promote_nobudget (env : Env) (b : Nat) (s : Nat) (p : Option Nat)
    (rest : List (Nat × Option Nat)) (rate : Nat) (us : List Nat)
    (hb : env.busy = false) (hc : ¬ env.promoteCost ≤ b) :
    tickAux env b ((s, p) :: rest) none rate us =
      ⟨⟨(s, p) :: rest, none, rate, us⟩, 0, []⟩ := by
  simp [tickAux, hb, hc]

theorem tickAux_finalize (env : Env) (b : Nat) (q : List (Nat × Option Nat))
    (r : UnstakeRequest) (rate : Nat) (us : List Nat) (hb : env.busy = false)
    (hl : env.windowSize ≤ r.checked.length) (hc : env.finalizeCost ≤ b) :
    tickAux env b q (some r) rate us =
      ⟨⟨q, none, rate, us ++ [r.stash]⟩, env.finalizeCost,
        [Event.Unstaked r.stash r.maybe_pool_id
          (env.finalizeResult r.stash r.maybe_pool_id)]⟩ := by
  simp [tickAux, hb, hl, hc]

theorem tickAux_finalize_nobudget (env : Env) (b : Nat) (q : List (Nat × Option Nat))
    (r : UnstakeRequest) (rate : Nat) (us : List Nat) (hb : env.busy = false)
    (hl : env.windowSize ≤ r.checked.length) (hc : ¬ env.finalizeCost ≤ b) :
    tickAux env b q (some r) rate us = ⟨⟨q, some r, rate, us⟩, 0, []⟩ := by
  simp [tickAux, hb, hl, hc]

theorem tickAux_verify (env : Env) (b : Nat) (q : List (Nat × Option Nat))
    (r : UnstakeRequest) (rate : Nat) (us : List Nat) (hb : env.busy = false)
    (hl : ¬ env.windowSize ≤ r.checked.length) :
    tickAux env b q (some r) rate us =
      ⟨⟨q,
         some ⟨r.stash, r.checked ++ (takeAffordable env.checkCost b rate (uncheckedOf env r.checked)).1,
           r.maybe_pool_id⟩,
         rate, us⟩,
        (takeAffordable env.checkCost b rate (uncheckedOf env r.checked)).2,
        if (takeAffordable env.checkCost b rate (uncheckedOf env r.checked)).1.isEmpty then []
        else [Event.Checked r.stash (takeAffordable env.checkCost b rate (uncheckedOf env r.checked)).1]⟩ := by
  simp [tickAux, hb, hl]

theorem tick_busy (env : Env) (st : FUState) (b : Nat) (h : env.busy = true) :
    tick env st b = ⟨st, 0, []⟩ := by
  obtain ⟨q, hd, rate, us⟩ := st
  rw [tick_eq, tickAux_busy env b q hd rate us h]

theorem inv_init (rate : Nat) : Inv (initState rate) := by
  constructor <;> simp [initState, Inv]

theorem inv_register {auth : Nat → Option Nat} {st st' : FUState} {c : Nat}
    {p : Option Nat} (h : register auth st c p = .ok st') (hi : Inv st) : Inv st' := by
  unfold register at h
  split at h
  · exact absurd h (by simp)
  next s hs =>
    split at h
    · exact absurd h (by simp)
    next hq =>
      split at h
      · exact absurd h (by simp)
      next hh =>
        have hst : { st with queue := st.queue ++ [(s, p)] } = st' := by
          simpa using h
        subst hst
        constructor
        · simp only [List.map_append, List.map_cons, List.map_nil]
          refine List.Nodup.append hi.1 (by simp) ?_
          intro a ha1 ha2
          simp only [List.mem_singleton] at ha2
          exact hq (ha2 ▸ ha1)
        · intro r hr
          simp only at hr
          have h2 := hi.2 r hr
          have hne : r.stash ≠ s := by
            intro he
            exact hh (by simp [headOf, hr, he])
          simp only [List.map_append, List.map_cons, List.map_nil, List.mem_append,
            List.mem_singleton]
          exact ⟨by simp [h2.1, hne], h2.2⟩

theorem inv_deregister {auth : Nat → Option Nat} {st st' : FUState} {c : Nat}
    (h : deregister auth st c = .ok st') (hi : Inv st) : Inv st' := by
  unfold deregister at h
  split at h
  · exact absurd h (by simp)
  next s hs =>
    split at h
    · exact absurd h (by simp)
    next hh =>
      split at h
      next hq =>
        have hst : { st with queue := st.queue.filter (fun qe => !(decide (qe.1 = s))) } = st' := by
          simpa using h
        subst hst
        have hsub : ((st.queue.filter (fun qe => !(decide (qe.1 = s)))).map Prod.fst).Sublist
            (st.queue.map Prod.fst) :=
          (List.filter_sublist st.queue).map Prod.fst
        constructor
        · exact hi.1.sublist hsub
        · intro r hr
          simp only at hr
          have h2 := hi.2 r hr
          exact ⟨fun hmem => h2.1 (hsub.subset hmem), h2.2⟩
      · exact absurd h (by simp)

theorem inv_control {cap : Bool} {st st' : FUState} {rate : Nat}
    (h : control cap st rate = .ok st') (hi : Inv st) : Inv st' := by
  unfold control at h
  cases cap with
  | false => exact absurd h (by simp)
  | true =>
    have hst : { st with erasToCheckPerBlock := rate } = st' := by simpa using h
    subst hst
    exact ⟨hi.1, fun r hr => hi.2 r hr⟩

theorem inv_tick (env : Env) (b : Nat) {st : FUState} (hi : Inv st) :
    Inv (tick env st b).state := by
  obtain ⟨q, hd, rate, us⟩ := st
  by_cases hb : env.busy = true
  · rw [tick_eq, tickAux_busy env b q hd rate us hb]; exact hi
  · have hb2 : env.busy = false := eq_false_of_ne_true hb
    cases hd with
    | none =>
      cases q with
      | nil => rw [tick_eq, tickAux_idle_empty env b rate us hb2]; exact hi
      | cons qe rest =>
        obtain ⟨s, p⟩ := qe
        by_cases hc : env.promoteCost ≤ b
        · rw [tick_eq, tickAux_promote env b s p rest rate us hb2 hc]
          have hk := hi.1
          simp only [List.map_cons] at hk
          have hk2 := List.nodup_cons.mp hk
          refine ⟨hk2.2, ?_⟩
          intro r hr
          simp only [Option.some.injEq] at hr
          subst hr
          refine ⟨hk2.1, ?_⟩
          exact takeAffordable_nodup env.checkCost rate (uncheckedOf env [])
            (b - env.promoteCost) (uncheckedOf_nodup env [])
        · rw [tick_eq, tickAux_promote_nobudget env b s p rest rate us hb2 hc]; exact hi
    | some r =>
      by_cases hl : env.windowSize ≤ r.checked.length
      · by_cases hc : env.finalizeCost ≤ b
        · rw [tick_eq, tickAux_finalize env b q r rate us hb2 hl hc]
          exact ⟨hi.1, by simp⟩
        · rw [tick_eq, tickAux_finalize_nobudget env b q r rate us hb2 hl hc]; exact hi
      · rw [tick_eq, tickAux_verify env b q r rate us hb2 hl]
        have h2 := hi.2 r rfl
        refine ⟨hi.1, ?_⟩
        intro r2 hr2
        simp only [Option.some.injEq] at hr2
        subst hr2
        refine ⟨h2.1, ?_⟩
        refine List.Nodup.append h2.2
          (takeAffordable_nodup env.checkCost rate (uncheckedOf env r.checked) b
            (uncheckedOf_nodup env r.checked)) ?_
        intro a ha hmem
        exact (mem_uncheckedOf.mp
          (takeAffordable_subset env.checkCost rate (uncheckedOf env r.checked) b a hmem)).2 ha

theorem reachable_inv {st : FUState} (h : Reachable st) : Inv st := by
  induction h with
  | init rate => exact inv_init rate
  | reg auth c p _ hok ih => exact inv_register hok ih
  | dereg auth c _ hok ih => exact inv_deregister hok ih
  | ctrl cap rate _ hok ih => exact inv_control hok ih
  | step env b _ ih => exact inv_tick env b ih

/-- C1: for every tick, the compute consumed by the tick entry point is at
most the compute-budget ceiling supplied to it; and whenever the budget
does not afford even the next unit of work (one promotion, one epoch
verification, or the finalize call), the tick consumes 0 and leaves the
whole state, in particular the Pending Set and the Active Slot,
unchanged. -/
theorem tick_budget_ceiling (env : Env) (st : FUState) (b : Nat) :
    (tick env st b).consumed ≤ b ∧
    ∀ c, nextUnitCost env st = some c → b < c →
      (tick env st b).state = st ∧ (tick env st b).consumed = 0 := by
  obtain ⟨q, hd, rate, us⟩ := st
  by_cases hb : env.busy = true
  · rw [tick_eq, tickAux_busy env b q hd rate us hb]
    exact ⟨Nat.zero_le b, fun c _ _ => ⟨rfl, rfl⟩⟩
  · have hb2 : env.busy = false := eq_false_of_ne_true hb
    cases hd with
    | none =>
      cases q with
      | nil =>
        rw [tick_eq, tickAux_idle_empty env b rate us hb2]
        exact ⟨Nat.zero_le b, fun c _ _ => ⟨rfl, rfl⟩⟩
      | cons qe rest =>
        obtain ⟨s, p⟩ := qe
        by_cases hc : env.promoteCost ≤ b
        · rw [tick_eq, tickAux_promote env b s p rest rate us hb2 hc]
          constructor
          · have h2 := takeAffordable_cost_le env.checkCost rate (uncheckedOf env [])
              (b - env.promoteCost)
            simp only
            omega
          · intro c hcost hlt
            simp only [nextUnitCost, Option.some.injEq] at hcost
            omega
        · rw [tick_eq, tickAux_promote_nobudget env b s p rest rate us hb2 hc]
          exact ⟨Nat.zero_le b, fun c _ _ => ⟨rfl, rfl⟩⟩
    | some r =>
      obtain ⟨rs, rc, rp⟩ := r
      by_cases hl : env.windowSize ≤ List.length rc
      · by_cases hc : env.finalizeCost ≤ b
        · rw [tick_eq, tickAux_finalize env b q ⟨rs, rc, rp⟩ rate us hb2 hl hc]
          refine ⟨hc, ?_⟩
          intro c hcost hlt
          simp only [nextUnitCost, if_pos hl, Option.some.injEq] at hcost
          omega
        · rw [tick_eq, tickAux_finalize_nobudget env b q ⟨rs, rc, rp⟩ rate us hb2 hl hc]
          exact ⟨Nat.zero_le b, fun c _ _ => ⟨rfl, rfl⟩⟩
      · rw [tick_eq, tickAux_verify env b q ⟨rs, rc, rp⟩ rate us hb2 hl]
        refine ⟨takeAffordable_cost_le env.checkCost rate (uncheckedOf env rc) b, ?_⟩
        intro c hcost hlt
        simp only [nextUnitCost, if_neg hl] at hcost
        cases rate with
        | zero => exact absurd hcost (by simp)
        | succ n =>
          cases hu : uncheckedOf env rc with
          | nil => rw [hu] at hcost; exact absurd hcost (by simp)
          | cons e tail =>
            rw [hu] at hcost
            simp only [Option.some.injEq] at hcost
            have hne : ¬ env.checkCost e ≤ b := by omega
            simp [takeAffordable, hne]

/-- C1 witness: with budget 0 and a promotion pending, the tick consumes 0
and changes nothing; with budget 10 the consumption stays below the
ceiling. -/
theorem tick_budget_ceiling_witness :
    (tick envW stA0 0).state = stA0 ∧ (tick envW stA0 0).consumed = 0 ∧
    (tick envW stA0 10).consumed ≤ 10 :=
  ⟨((tick_budget_ceiling envW stA0 0).2 1 (by decide) (by decide)).1,
   ((tick_budget_ceiling envW stA0 0).2 1 (by decide) (by decide)).2,
   (tick_budget_ceiling envW stA0 10).1⟩

/-- C2: in every reachable state an account belongs to at most one of the
Pending Set and the Active Slot; register fails on an account already
queued or already active; and promoting an account into the Active Slot
removes it from the Pending Set in the same step. -/
theorem mutual_exclusion :
    (∀ st, Reachable st → ∀ r, st.head = some r → r.stash ∉ st.queue.map Prod.fst) ∧
    (∀ auth (st : FUState) c p s, auth c = some s → s ∈ st.queue.map Prod.fst →
      register auth st c p = .error .AlreadyQueued) ∧
    (∀ auth (st : FUState) c p s, auth c = some s → s ∉ st.queue.map Prod.fst →
      headOf st = some s → register auth st c p = .error .AlreadyActive) ∧
    (∀ env (st : FUState) b s p rest, env.busy = false → st.head = none →
      st.queue = (s, p) :: rest → env.promoteCost ≤ b →
      (tick env st b).state.queue = rest ∧
      ∃ cs, (tick env st b).state.head = some ⟨s, cs, p⟩) := by
  refine ⟨?_, ?_, ?_, ?_⟩
  · intro st hr r hh
    exact ((reachable_inv hr).2 r hh).1
  · intro auth st c p s ha hq
    simp [register, ha, hq]
  · intro auth st c p s ha hq hh
    simp [register, ha, hq, hh]
  · intro env st b s p rest hb hh hq hc
    rw [tick_eq, hh, hq, tickAux_promote env b s p rest st.erasToCheckPerBlock st.unstaked hb hc]
    exact ⟨rfl, _, rfl⟩

/-- C2 witness: in the reachable state where account 1 was registered and
then promoted with all epochs confirmed, account 1 is no longer in the
Pending Set; and registering account 1 while it is queued fails with
AlreadyQueued. -/
theorem mutual_exclusion_witness :
    (1 : Nat) ∉ stHead4.queue.map Prod.fst ∧
    register authW stReg 2 none = .error .AlreadyQueued :=
  ⟨mutual_exclusion.1 stHead4
      (Reachable.step envW 10 (Reachable.reg authW 2 (some 1) (Reachable.init 4) rfl))
      ⟨1, [3, 2, 1, 0], some 1⟩ (by decide),
   mutual_exclusion.2.1 authW stReg 2 none 1 (by decide) (by decide)⟩

/-- C3: while the busy signal is asserted, ticks consume zero compute,
emit no events, and change no state, for any number of consecutive busy
ticks; the first tick after the pause acts on exactly the state, including
the partial confirmed epochs, from before the pause. -/
theorem pause_correctness (steps : List (Env × Nat)) (st : FUState)
    (h : ∀ s ∈ steps, s.1.busy = true) :
    (runTicks steps st).1 = st ∧ (runTicks steps st).2.1 = 0 ∧
    (runTicks steps st).2.2 = [] ∧
    ∀ env b, tick env (runTicks steps st).1 b = tick env st b := by
  induction steps with
  | nil => exact ⟨rfl, rfl, rfl, fun env b => rfl⟩
  | cons sd rest ih =>
    obtain ⟨env0, b0⟩ := sd
    have hb : env0.busy = true := h (env0, b0) (List.mem_cons_self _ _)
    have hrest : ∀ s ∈ rest, s.1.busy = true := fun s hs => h s (List.mem_cons_of_mem _ hs)
    have ht : tick env0 st b0 = ⟨st, 0, []⟩ := tick_busy env0 st b0 hb
    have ihr := ih hrest
    simp only [runTicks, ht]
    exact ⟨ihr.1, by simp [ihr.2.1], by simp [ihr.2.2.1], fun env b => by rw [ihr.1]⟩

/-- C3 witness: two busy ticks leave the mid-verification state untouched,
and the next tick behaves exactly as a tick from the pre-pause state. -/
theorem pause_correctness_witness :
    (runTicks stepsBusy stMid).1 = stMid ∧
    tick envSlide (runTicks stepsBusy stMid).1 10 = tick envSlide stMid 10 :=
  ⟨(pause_correctness stepsBusy stMid (by decide)).1,
   (pause_correctness stepsBusy stMid (by decide)).2.2.2 envSlide 10⟩

/-- C4: the epochs to verify are recomputed each tick as the current
window minus the epochs already confirmed, and finalization is gated only
by the confirmed count reaching the window size: for any tick on an
active record, the Active Slot is cleared exactly when the count has
reached the window size and the budget affords the finalize call.
Concretely, resuming from confirmed epochs [3, 2] after the window slid to
[1, 4] checks the newly relevant epoch 4, then epoch 1, then finalizes
without ever checking epoch 0; and epochs 9 and 8, confirmed earlier but
outside the window, are kept, count toward the length, and epoch 2, still
inside the window, is skipped once the length is reached. -/
theorem sliding_window_recompute :
    (∀ env (st : FUState) b r, env.busy = false → st.head = some r →
      ((tick env st b).state.head = none ↔
        env.windowSize ≤ r.checked.length ∧ env.finalizeCost ≤ b)) ∧
    (∀ env (st : FUState) b r, env.busy = false → st.head = some r →
      r.checked.length < env.windowSize →
      ∃ eras, (tick env st b).state.head = some ⟨r.stash, r.checked ++ eras, r.maybe_pool_id⟩ ∧
        ∀ e ∈ eras, e ∈ eraWindow env ∧ e ∉ r.checked) ∧
    ((tick envSlide stMid 10).state.head = some ⟨1, [3, 2, 4], some 1⟩ ∧
     (tick envSlide (tick envSlide stMid 10).state 10).state.head =
       some ⟨1, [3, 2, 4, 1], some 1⟩ ∧
     (tick envSlide (tick envSlide (tick envSlide stMid 10).state 10).state 10).state.head =
       none) ∧
    ((9 : Nat) ∉ eraWindow envSlide ∧ (8 : Nat) ∉ eraWindow envSlide ∧
     (tick envSlide stSkip 10).state.head = some ⟨1, [9, 8, 3, 4], none⟩ ∧
     (tick envSlide (tick envSlide stSkip 10).state 10).state.head = none ∧
     (2 : Nat) ∈ eraWindow envSlide ∧ (2 : Nat) ∉ ([9, 8, 3, 4] : List Nat)) := by
  refine ⟨?_, ?_, by decide, by decide⟩
  · intro env st b r hb hh
    by_cases hl : env.windowSize ≤ r.checked.length
    · by_cases hc : env.finalizeCost ≤ b
      · rw [tick_eq, hh, tickAux_finalize env b st.queue r st.erasToCheckPerBlock st.unstaked hb hl hc]
        simp [hl, hc]
      · rw [tick_eq, hh,
          tickAux_finalize_nobudget env b st.queue r st.erasToCheckPerBlock st.unstaked hb hl hc]
        simp [hc]
    · rw [tick_eq, hh, tickAux_verify env b st.queue r st.erasToCheckPerBlock st.unstaked hb hl]
      simp [hl]
  · intro env st b r hb hh hl
    rw [tick_eq, hh,
      tickAux_verify env b st.queue r st.erasToCheckPerBlock st.unstaked hb (by omega)]
    refine ⟨_, rfl, ?_⟩
    intro e he
    exact mem_uncheckedOf.mp
      (takeAffordable_subset env.checkCost st.erasToCheckPerBlock (uncheckedOf env r.checked) b e he)

/-- C4 witness: a record whose confirmed count reached the window size is
finalized by the next tick, and a tick on the mid-verification state after
the slide appends only epochs of the current window not yet confirmed. -/
theorem sliding_window_recompute_witness :
    (tick envSlide stDone 10).state.head = none ∧
    ∃ eras, (tick envSlide stMid 10).state.head = some ⟨1, [3, 2] ++ eras, some 1⟩ ∧
      ∀ e ∈ eras, e ∈ eraWindow envSlide ∧ e ∉ ([3, 2] : List Nat) :=
  ⟨(sliding_window_recompute.1 envSlide stDone 10 ⟨1, [3, 2, 1, 0], some 1⟩ rfl rfl).mpr
      (by decide),
   sliding_window_recompute.2.1 envSlide stMid 10 ⟨1, [3, 2], some 1⟩ rfl rfl (by decide)⟩

/-- C5: within one Active Record lifetime the confirmed epochs never
repeat: in every reachable state the confirmed list of the Active Slot is
duplicate-free; and the epochs submitted to the verification collaborator
during a tick are exactly the newly appended ones, none of which was
already confirmed. -/
theorem no_duplicate_verification :
    (∀ st, Reachable st → ∀ r, st.head = some r → r.checked.Nodup) ∧
    (∀ env (st : FUState) b r, env.busy = false → st.head = some r →
      r.checked.length < env.windowSize →
      ∃ eras, (tick env st b).state.head = some ⟨r.stash, r.checked ++ eras, r.maybe_pool_id⟩ ∧
        ∀ e ∈ eras, e ∉ r.checked) := by
  constructor
  · intro st hr r hh
    exact ((reachable_inv hr).2 r hh).2
  · intro env st b r hb hh hl
    rw [tick_eq, hh,
      tickAux_verify env b st.queue r st.erasToCheckPerBlock st.unstaked hb (by omega)]
    refine ⟨_, rfl, ?_⟩
    intro e he
    exact (mem_uncheckedOf.mp
      (takeAffordable_subset env.checkCost st.erasToCheckPerBlock (uncheckedOf env r.checked)
        b e he)).2

/-- C5 witness: the confirmed list of the reachable fully-checked state is
duplicate-free, and a tick on the record holding [9, 8, 3] submits no
epoch already confirmed. -/
theorem no_duplicate_verification_witness :
    ([3, 2, 1, 0] : List Nat).Nodup ∧
    ∃ eras, (tick envSlide stSkip 10).state.head = some ⟨1, [9, 8, 3] ++ eras, none⟩ ∧
      ∀ e ∈ eras, e ∉ ([9, 8, 3] : List Nat) :=
  ⟨no_duplicate_verification.1 stHead4
      (Reachable.step envW 10 (Reachable.reg authW 2 (some 1) (Reachable.init 4) rfl))
      ⟨1, [3, 2, 1, 0], some 1⟩ (by decide),
   no_duplicate_verification.2 envSlide stSkip 10 ⟨1, [9, 8, 3], none⟩ rfl rfl (by decide)⟩

/-- C6: register fails with NotAuthorized when the caller is not the
authorized manager of a fully-committed account (the authorization map
returns none, covering a partial withdrawal in progress), with
AlreadyQueued when the account is already in the Pending Set, with
AlreadyActive when it occupies the Active Slot, and otherwise succeeds by
inserting the account with its optional destination pool into the Pending
Set while the Active Slot, the rate and the unstaked record stay
untouched; every failure returns an error and produces no state. -/
theorem register_spec :
    (∀ auth (st : FUState) c p, auth c = none →
      register auth st c p = .error .NotAuthorized) ∧
    (∀ auth (st : FUState) c p s, auth c = some s → s ∈ st.queue.map Prod.fst →
      register auth st c p = .error .AlreadyQueued) ∧
    (∀ auth (st : FUState) c p s, auth c = some s → s ∉ st.queue.map Prod.fst →
      headOf st = some s → register auth st c p = .error .AlreadyActive) ∧
    (∀ auth (st : FUState) c p s, auth c = some s → s ∉ st.queue.map Prod.fst →
      headOf st ≠ some s →
      register auth st c p = .ok { st with queue := st.queue ++ [(s, p)] }) := by
  refine ⟨?_, ?_, ?_, ?_⟩
  · intro auth st c p ha
    simp [register, ha]
  · intro auth st c p s ha hq
    simp [register, ha, hq]
  · intro auth st c p s ha hq hh
    simp [register, ha, hq, hh]
  · intro auth st c p s ha hq hh
    simp [register, ha, hq, hh]

/-- C6 witness: the four register outcomes at concrete states. -/
theorem register_spec_witness :
    register authW (initState 4) 3 none = .error .NotAuthorized ∧
    register authW stReg 2 (some 2) = .error .AlreadyQueued ∧
    register authW stHd 2 none = .error .AlreadyActive ∧
    register authW (initState 4) 2 (some 1) =
      .ok { initState 4 with queue := (initState 4).queue ++ [(1, some 1)] } :=
  ⟨register_spec.1 authW (initState 4) 3 none (by decide),
   register_spec.2.1 authW stReg 2 (some 2) 1 (by decide) (by decide),
   register_spec.2.2.1 authW stHd 2 none 1 (by decide) (by decide) (by decide),
   register_spec.2.2.2 authW (initState 4) 2 (some 1) 1 (by decide) (by decide) (by decide)⟩

/-- C7: deregister fails with NotAuthorized when the caller is not the
manager of the account, with AlreadyActive when the account occupies the
Active Slot (an in-flight verification cannot be cancelled), with
NotQueued when the account is absent from the Pending Set, and otherwise
succeeds by removing the account from the Pending Set while everything
else stays untouched; every failure returns an error and produces no
state. -/
theorem deregister_spec :
    (∀ auth (st : FUState) c, auth c = none →
      deregister auth st c = .error .NotAuthorized) ∧
    (∀ auth (st : FUState) c s, auth c = some s → headOf st = some s →
      deregister auth st c = .error .AlreadyActive) ∧
    (∀ auth (st : FUState) c s, auth c = some s → headOf st ≠ some s →
      s ∉ st.queue.map Prod.fst → deregister auth st c = .error .NotQueued) ∧
    (∀ auth (st : FUState) c s, auth c = some s → headOf st ≠ some s →
      s ∈ st.queue.map Prod.fst →
      deregister auth st c =
        .ok { st with queue := st.queue.filter (fun qe => !(decide (qe.1 = s))) }) := by
  refine ⟨?_, ?_, ?_, ?_⟩
  · intro auth st c ha
    simp [deregister, ha]
  · intro auth st c s ha hh
    simp [deregister, ha, hh]
  · intro auth st c s ha hh hq
    simp [deregister, ha, hh, hq]
  · intro auth st c s ha hh hq
    simp [deregister, ha, hh, hq]

/-- C7 witness: the four deregister outcomes at concrete states. -/
theorem deregister_spec_witness :
    deregister authW (initState 4) 3 = .error .NotAuthorized ∧
    deregister authW stHd 2 = .error .AlreadyActive ∧
    deregister authW (initState 4) 2 = .error .NotQueued ∧
    deregister authW stReg 2 =
      .ok { stReg with queue := stReg.queue.filter (fun qe => !(decide (qe.1 = 1))) } :=
  ⟨deregister_spec.1 authW (initState 4) 3 (by decide),
   deregister_spec.2.1 authW stHd 2 1 (by decide) (by decide),
   deregister_spec.2.2.1 authW (initState 4) 2 1 (by decide) (by decide) (by decide),
   deregister_spec.2.2.2 authW stReg 2 1 (by decide) (by decide) (by decide)⟩

/-- C8: with confirmation window size 4 and rate one epoch per tick, a
registered account is processed in exactly 5 ticks: each of the first four
ticks confirms exactly one epoch in descending order starting at the
current epoch (3, 2, 1, 0), each emitting a single Checked event, and the
fifth tick finalizes, emits the single terminal Unstaked event, records
the account as unstaked, and clears the Active Slot. -/
theorem scenario_one_epoch_per_tick :
    tickA1.state.head = some ⟨1, [3], some 1⟩ ∧
    tickA1.events = [Event.Checked 1 [3]] ∧
    tickA2.state.head = some ⟨1, [3, 2], some 1⟩ ∧
    tickA2.events = [Event.Checked 1 [2]] ∧
    tickA3.state.head = some ⟨1, [3, 2, 1], some 1⟩ ∧
    tickA3.events = [Event.Checked 1 [1]] ∧
    tickA4.state.head = some ⟨1, [3, 2, 1, 0], some 1⟩ ∧
    tickA4.events = [Event.Checked 1 [0]] ∧
    tickA5.state.head = none ∧
    tickA5.events = [Event.Unstaked 1 (some 1) .ok] ∧
    tickA5.state.unstaked = [1] := by
  decide

/-- C9: when the finalize collaborator reports a structured failure, the
account is unstaked all the same: the Active Slot is cleared, the account
is recorded as unstaked, the single Unstaked event carries the error, the
tick returns the ordinary finalize cost with no error channel, and the
resulting state and consumption are identical to those of a successful
finalize, so the failure is never retried. -/
theorem finalize_failure_still_unstakes (env : Env) (st : FUState) (b : Nat)
    (r : UnstakeRequest) (e : Nat) (hb : env.busy = false) (hh : st.head = some r)
    (hl : env.windowSize ≤ r.checked.length) (hc : env.finalizeCost ≤ b)
    (he : env.finalizeResult r.stash r.maybe_pool_id = .err e) :
    (tick env st b).state.head = none ∧
    (tick env st b).state.unstaked = st.unstaked ++ [r.stash] ∧
    (tick env st b).events = [Event.Unstaked r.stash r.maybe_pool_id (.err e)] ∧
    (tick env st b).consumed = env.finalizeCost ∧
    (tick env st b).state =
      (tick { env with finalizeResult := fun _ _ => .ok } st b).state ∧
    (tick env st b).consumed =
      (tick { env with finalizeResult := fun _ _ => .ok } st b).consumed := by
  have h1 := tickAux_finalize env b st.queue r st.erasToCheckPerBlock st.unstaked hb hl hc
  have h2 := tickAux_finalize { env with finalizeResult := fun _ _ => .ok } b st.queue r
    st.erasToCheckPerBlock st.unstaked hb hl hc
  simp [tick_eq, hh, h1, h2, he]

/-- C9 witness: finalizing the fully-checked record under the rejecting
pool collaborator clears the slot, records the account as unstaked, and
reports the error inside the Unstaked event. -/
theorem finalize_failure_still_unstakes_witness :
    (tick envErr stDone 10).state.head = none ∧
    (tick envErr stDone 10).state.unstaked = stDone.unstaked ++ [1] ∧
    (tick envErr stDone 10).events = [Event.Unstaked 1 (some 1) (.err 7)] ∧
    (tick envErr stDone 10).consumed = envErr.finalizeCost := by
  have h := finalize_failure_still_unstakes envErr stDone 10 ⟨1, [3, 2, 1, 0], some 1⟩ 7
    rfl rfl (by decide) (by decide) rfl
  exact ⟨h.1, h.2.1, h.2.2.1, h.2.2.2.1⟩

/-- C10: every epoch confirmed within a tick is reported in the single
Checked event of that tick, listing the epochs in the order they were
verified (the same order in which they are appended to the confirmed
list), and a tick that confirms no epoch and performs no finalize emits no
event at all. -/
theorem one_checked_event_per_tick (env : Env) (st : FUState) (b : Nat)
    (hb : env.busy = false) :
    (∀ r, st.head = some r → r.checked.length < env.windowSize →
      ∃ eras, (tick env st b).state.head = some ⟨r.stash, r.checked ++ eras, r.maybe_pool_id⟩ ∧
        (tick env st b).events =
          (if eras.isEmpty then [] else [Event.Checked r.stash eras])) ∧
    (∀ s p rest, st.head = none → st.queue = (s, p) :: rest → env.promoteCost ≤ b →
      ∃ eras, (tick env st b).state.head = some ⟨s, eras, p⟩ ∧
        (tick env st b).events = (if eras.isEmpty then [] else [Event.Checked s eras])) ∧
    (st.head = none → st.queue = [] → (tick env st b).events = []) ∧
    (st.head = none → ¬ env.promoteCost ≤ b → (tick env st b).events = []) ∧
    (∀ r, st.head = some r → env.windowSize ≤ r.checked.length → ¬ env.finalizeCost ≤ b →
      (tick env st b).events = []) := by
  refine ⟨?_, ?_, ?_, ?_, ?_⟩
  · intro r hh hl
    rw [tick_eq, hh,
      tickAux_verify env b st.queue r st.erasToCheckPerBlock st.unstaked hb (by omega)]
    exact ⟨_, rfl, rfl⟩
  · intro s p rest hh hq hc
    rw [tick_eq, hh, hq, tickAux_promote env b s p rest st.erasToCheckPerBlock st.unstaked hb hc]
    exact ⟨_, rfl, rfl⟩
  · intro hh hq
    rw [tick_eq, hh, hq, tickAux_idle_empty env b st.erasToCheckPerBlock st.unstaked hb]
  · intro hh hc
    cases hq : st.queue with
    | nil => rw [tick_eq, hh, hq, tickAux_idle_empty env b st.erasToCheckPerBlock st.unstaked hb]
    | cons qe rest =>
      obtain ⟨s, p⟩ := qe
      rw [tick_eq, hh, hq,
        tickAux_promote_nobudget env b s p rest st.erasToCheckPerBlock st.unstaked hb hc]
  · intro r hh hl hc
    rw [tick_eq, hh,
      tickAux_finalize_nobudget env b st.queue r st.erasToCheckPerBlock st.unstaked hb hl hc]

/-- C10 witness: a zero-budget tick on the mid-verification state confirms
no epoch and emits no event, and a tick on the empty initial state emits
no event. -/
theorem one_checked_event_per_tick_witness :
    (∃ eras, (tick envSlide stMid 0).state.head = some ⟨1, [3, 2] ++ eras, some 1⟩ ∧
      (tick envSlide stMid 0).events =
        (if eras.isEmpty then [] else [Event.Checked 1 eras])) ∧
    (tick envW (initState 1) 5).events = [] :=
  ⟨(one_checked_event_per_tick envSlide stMid 0 rfl).1 ⟨1, [3, 2], some 1⟩ rfl (by decide),
   (one_checked_event_per_tick envW (initState 1) 5 rfl).2.2.1 rfl rfl⟩

end FastUnstake
